import Mathlib

/-!
Verification of the ECC library core (Galois fields, polynomials, Hamming,
BCH and Reed-Solomon codecs) against its specification.

The embedding follows the C++ sources in src/include/ecc.  Lookup tables
(std::array of uint32_t cells) are modelled as a single natural number
packed in base 2^16: cell i of table T is digit i, read with getEntry and
written with setEntry.  Every cell value that occurs is below 2^13, so no
information is lost.  Machine integers are modelled as Nat, with the one
place where C++ unsigned wrap-around is semantically visible (the uint32_t
subtraction inside GaloisField::divide) modelled explicitly modulo 2^32.
-/

set_option maxRecDepth 40000
set_option exponentiation.threshold 100000

/-- Base used to pack one table cell per digit: 2^16 exceeds every value the
library ever stores in a table cell (all are below 2^13 for m up to 12). -/
def cellB : Nat := 2 ^ 16

/-- Read cell i of a packed table. -/
def getEntry (T i : Nat) : Nat := T / cellB ^ i % cellB

/-- Overwrite cell i of a packed table with x (x below cellB). -/
def setEntry (T i x : Nat) : Nat := T - getEntry T i * cellB ^ i + x * cellB ^ i

/-- Galois field GF(2^m) state: the template parameter m, the primitive
polynomial passed to the constructor, and the two tables built by
GaloisField::build_tables. -/
structure GF where
  m : Nat
  poly : Nat
  expT : Nat
  logT : Nat
deriving Repr

/-- field_size = 1 << m. -/
def GF.fieldSize (gf : GF) : Nat := 2 ^ gf.m

/-- One iteration of the exp-table loop of GaloisField::build_tables:
value <<= 1; if (value & field_size) value ^= primitive_poly. -/
def expStep (fs poly v : Nat) : Nat :=
  let v2 := v <<< 1
  if v2 &&& fs ≠ 0 then v2 ^^^ poly else v2

/-- The exp-table loop of GaloisField::build_tables, iterations
i = 1 .. field_size-1, writing exp_table[i mod (field_size-1)] = value;
the fuel counts the remaining iterations and i is the current loop index.
Written with a bare Nat.rec and a self-comparison on the updated table so
that kernel reduction of the loop is iterative and keeps the accumulated
table in evaluated form (the comparison is always true and has no
semantic effect). -/
def expLoop (fs poly : Nat) (fuel : Nat) : Nat → Nat → Nat → Nat :=
  Nat.rec (fun _ _ T => T)
    (fun _ ih i v T =>
      let v2 := expStep fs poly v
      let T2 := setEntry T (i % (fs - 1)) v2
      if T2 == T2 then ih (i + 1) v2 T2 else T2)
    fuel

/-- exp_table after GaloisField::build_tables: cell 0 starts at 1, then the
shift-and-reduce loop runs for i = 1 .. field_size-1. -/
def buildExp (fs poly : Nat) : Nat := expLoop fs poly (fs - 1) 1 1 (setEntry 0 0 1)

/-- The log-table loop of GaloisField::build_tables: log_table[0] = 0, then
log_table[exp_table[i]] = i for i in [0, field_size-1).  The all-zero
initial table models log_table[0] = 0 together with the remaining cells,
which the loop overwrites for every reachable element.  Written with a
bare Nat.rec and a semantically inert self-comparison, as in expLoop, to
keep kernel reduction iterative. -/
def logLoop (expT : Nat) (fuel : Nat) : Nat → Nat → Nat :=
  Nat.rec (fun _ T => T)
    (fun _ ih i T =>
      let T2 := setEntry T (getEntry expT i) i
      if T2 == T2 then ih (i + 1) T2 else T2)
    fuel

/-- log_table after GaloisField::build_tables. -/
def buildLog (expT fs : Nat) : Nat := logLoop expT (fs - 1) 0 0

/-- GaloisField constructor body: store the polynomial and build both tables. -/
def gfBuild (m poly : Nat) : GF :=
  let fs := 2 ^ m
  let e := buildExp fs poly
  { m := m, poly := poly, expT := e, logT := buildLog e fs }

/-- The GaloisField constructor never validates its argument and has no
failure path: it only stores the polynomial and calls build_tables. -/
def gfConstruct (m poly : Nat) : Except String GF := Except.ok (gfBuild m poly)

/-- exp_table lookup. -/
def GF.expAt (gf : GF) (i : Nat) : Nat := getEntry gf.expT i

/-- log_table lookup. -/
def GF.logAt (gf : GF) (a : Nat) : Nat := getEntry gf.logT a

/-- GaloisField::add - XOR. -/
def GF.add (_gf : GF) (a b : Nat) : Nat := a ^^^ b

/-- Index into exp_table computed by GaloisField::multiply. -/
def GF.mulIdx (gf : GF) (a b : Nat) : Nat :=
  (gf.logAt a + gf.logAt b) % (gf.fieldSize - 1)

/-- GaloisField::multiply via the lookup tables. -/
def GF.multiply (gf : GF) (a b : Nat) : Nat :=
  if a = 0 ∨ b = 0 then 0 else gf.expAt (gf.mulIdx a b)

/-- Index into exp_table computed by GaloisField::divide.  The source
subtracts two uint32_t table cells, so the difference wraps modulo 2^32
before field_size - 1 is added and the modulus is taken; the wrap is kept
here because it is observable (log values are far below 2^32, so
la - lb wraps exactly when la is smaller than lb). -/
def GF.divIdx (gf : GF) (a b : Nat) : Nat :=
  ((gf.logAt a + (2 ^ 32 - gf.logAt b)) % 2 ^ 32 + gf.fieldSize - 1) % (gf.fieldSize - 1)

/-- GaloisField::divide; throwing std::invalid_argument is modelled as
Except.error with the message of the source. -/
def GF.divide (gf : GF) (a b : Nat) : Except String Nat :=
  if b = 0 then Except.error "Division by zero in Galois field"
  else if a = 0 then Except.ok 0
  else Except.ok (gf.expAt (gf.divIdx a b))

/-- Total wrapper for GaloisField::divide used by callers that never pass a
zero divisor (the exception path is unreachable there). -/
def GF.divideD (gf : GF) (a b : Nat) : Nat := (gf.divide a b).toOption.getD 0

/-- Index into exp_table computed by GaloisField::power. -/
def GF.powIdx (gf : GF) (base e : Nat) : Nat :=
  gf.logAt base * e % (gf.fieldSize - 1)

/-- GaloisField::power. -/
def GF.power (gf : GF) (base e : Nat) : Nat :=
  if base = 0 then (if e = 0 then 1 else 0) else gf.expAt (gf.powIdx base e)

/-- Index into exp_table computed by GaloisField::inverse. -/
def GF.invIdx (gf : GF) (a : Nat) : Nat :=
  (gf.fieldSize - 1 - gf.logAt a) % (gf.fieldSize - 1)

/-- GaloisField::inverse. -/
def GF.inverse (gf : GF) (a : Nat) : Except String Nat :=
  if a = 0 then Except.error "Zero has no multiplicative inverse"
  else Except.ok (gf.expAt (gf.invIdx a))

/-- Total wrapper for GaloisField::inverse used where the argument is known
to be nonzero. -/
def GF.inverseD (gf : GF) (a : Nat) : Nat := (gf.inverse a).toOption.getD 0

/-- Loop of GaloisField::is_primitive: starting from current = alpha, return
false as soon as current reaches 1, multiply by alpha each of the
field_size - 2 iterations, and finally test current == 1 (bare Nat.rec on
the iteration count for iterative kernel reduction; the equality test of
the loop forces the running product). -/
def primLoop (gf : GF) (alpha : Nat) (fuel : Nat) : Nat → Bool :=
  Nat.rec (fun current => current == 1)
    (fun _ ih current =>
      if current == 1 then false else ih (gf.multiply current alpha))
    fuel


/-- GaloisField::is_primitive. -/
def GF.isPrimitive (gf : GF) (alpha : Nat) : Bool :=
  if alpha ≤ 1 then false else primLoop gf alpha (gf.fieldSize - 2) alpha

/-- galois_utils::get_default_primitive and the identical
BCHCode::get_default_primitive_poly table (m in [3,8]), extended by the
fallback x^m + x + 1 for other m. -/
def getDefaultPrimitive (m : Nat) : Nat :=
  if m = 3 then 0xB
  else if m = 4 then 0x13
  else if m = 5 then 0x25
  else if m = 6 then 0x43
  else if m = 7 then 0x89
  else if m = 8 then 0x11D
  else if m = 10 then 0x409
  else if m = 12 then 0x1053
  else (1 <<< m) ||| 3

/-- GFPolynomial::normalize: drop trailing zero coefficients; an empty list
becomes the zero polynomial with a single zero coefficient. -/
def polyNorm (c : List Nat) : List Nat :=
  let r := (c.reverse.dropWhile (fun x => x == 0)).reverse
  if r.isEmpty then [0] else r

/-- Coefficient access, out of range gives 0 (GFPolynomial::operator[] and
the coefficient accessor specified for it). -/
def polyGet (c : List Nat) (i : Nat) : Nat := c.getD i 0

/-- GFPolynomial::degree: size - 1 on the kept nonempty representation. -/
def polyDeg (c : List Nat) : Nat := c.length - 1

/-- GFPolynomial::is_zero: all coefficients are zero. -/
def polyIsZero (c : List Nat) : Bool := c.all (fun x => x == 0)

/-- Coefficient-wise field addition up to the longer length;
a missing coefficient acts as 0 and XOR by 0 is the identity, so the tail
of the longer list is kept as is. -/
def polyAddRaw (gf : GF) : List Nat → List Nat → List Nat
  | [], q => q
  | p, [] => p
  | a :: p, b :: q => gf.add a b :: polyAddRaw gf p q

/-- GFPolynomial::operator+ (the constructor of the result normalizes). -/
def polyAdd (gf : GF) (p q : List Nat) : List Nat := polyNorm (polyAddRaw gf p q)

/-- Multiply every coefficient by the scalar a. -/
def polyScale (gf : GF) (a : Nat) (q : List Nat) : List Nat :=
  q.map (fun b => gf.multiply a b)

/-- Schoolbook convolution of GFPolynomial::operator*: the double loop
result[i+j] += p[i] * q[j] grouped by rows, row i being p[i] * q shifted
by i; XOR accumulation makes the grouping exact. -/
def polyMulRaw (gf : GF) : List Nat → List Nat → List Nat
  | [], _ => []
  | a :: p, q => polyAddRaw gf (polyScale gf a q) (0 :: polyMulRaw gf p q)

/-- GFPolynomial::operator*: zero short-circuit, convolution, and the
normalization performed by the constructor of the result. -/
def polyMul (gf : GF) (p q : List Nat) : List Nat :=
  if polyIsZero p || polyIsZero q then [0]
  else polyNorm (polyMulRaw gf p q)

/-- GFPolynomial::evaluate - Horner from the highest coefficient down,
written as a right fold: step a res = add (multiply res x) a. -/
def polyEval (gf : GF) (c : List Nat) (x : Nat) : Nat :=
  c.foldr (fun a res => gf.add (gf.multiply res x) a) 0

/-- Modelled from the spec: GFPolynomial::divmod is called by
BCHCode::encode but no definition of it appears in the sources.  Section
4.P of the specification states it is Euclidean division returning
(quotient, remainder) with deg(remainder) < deg(divisor) and
quotient * divisor + remainder = dividend.  Implemented as long division
cancelling the leading coefficient each round; fuel bounds the rounds. -/
def polyDivModAux (gf : GF) (b : List Nat) : Nat → List Nat → List Nat → List Nat × List Nat
  | 0, q, r => (q, r)
  | fuel + 1, q, r =>
    let rn := polyNorm r
    if polyIsZero rn || decide (polyDeg rn < polyDeg b) then (q, rn)
    else
      let shift := polyDeg rn - polyDeg b
      let factor := gf.divideD (polyGet rn (polyDeg rn)) (polyGet b (polyDeg b))
      let q2 := polyAddRaw gf q (List.replicate shift 0 ++ [factor])
      let r2 := polyAddRaw gf rn (List.replicate shift 0 ++ polyScale gf factor b)
      polyDivModAux gf b fuel q2 r2

/-- Modelled from the spec: Euclidean divmod, see polyDivModAux. -/
def polyDivMod (gf : GF) (a b : List Nat) : List Nat × List Nat :=
  let qr := polyDivModAux gf b (a.length + 1) [] a
  (polyNorm qr.1, polyNorm qr.2)

/-- Loop body of ReedSolomonCode::polynomial_mod: subtract
factor * x^shift * divisor from the running value; set_coefficient
normalizes after each write, and since only the final write clears the
leading coefficient this equals one normalization after the writes. -/
def polyModAux (gf : GF) (divisor : List Nat) : Nat → List Nat → List Nat
  | 0, q => q
  | fuel + 1, q =>
    if decide (polyDeg divisor ≤ polyDeg q) && !polyIsZero q then
      let lead := polyGet q (polyDeg q)
      let factor := gf.divideD lead (polyGet divisor (polyDeg divisor))
      let shift := polyDeg q - polyDeg divisor
      let q2 := polyNorm (polyAddRaw gf q (List.replicate shift 0 ++ polyScale gf factor divisor))
      polyModAux gf divisor fuel q2
    else q

/-- ReedSolomonCode::polynomial_mod (the dividend arrives normalized, being
a Polynomial value). -/
def polyModRS (gf : GF) (dividend divisor : List Nat) : List Nat :=
  polyModAux gf divisor (dividend.length + 1) (polyNorm dividend)

/-- Flip one bit of a bit word (bitset::flip at position p). -/
def flipBit (w : List Bool) (p : Nat) : List Bool := w.set p (! w.getD p false)

/-- Cell of the generator matrix G built by HammingCode::generate_matrices:
row i carries the identity bit at column i and, at parity column k + j, bit
j of i + 1; all other cells stay at the bitset default 0. -/
def hammingG (k i col : Nat) : Bool :=
  if col = i then true
  else if k ≤ col then (i + 1).testBit (col - k)
  else false

/-- Cell of the parity-check matrix H built by HammingCode::generate_matrices:
columns below k transpose the parity block of G, column k + i carries the
identity bit of row i. -/
def hammingH (k i col : Nat) : Bool :=
  if col < k then hammingG k col (k + i)
  else col == k + i

/-- HammingCode::calculate_syndrome followed by bitset::to_ulong: bit i of
the syndrome is the XOR over the received bits selected by row i of H. -/
def hammingSyndrome (n k : Nat) (recv : List Bool) : Nat :=
  (List.range (n - k)).foldl
    (fun acc i =>
      let bit := (List.range n).foldl
        (fun b j => Bool.xor b (recv.getD j false && hammingH k i j)) false
      acc + if bit then 2 ^ i else 0)
    0

/-- HammingCode::build_syndrome_table: start with every entry at the
sentinel n, then for each single-bit error pattern store its position at
the syndrome index (later positions overwrite earlier ones). -/
def hammingTable (n k : Nat) : List Nat :=
  (List.range n).foldl
    (fun tbl pos =>
      let e := (List.range n).map (fun j => j == pos)
      tbl.set (hammingSyndrome n k e) pos)
    (List.replicate (2 ^ (n - k)) n)

/-- HammingCode::encode: data in positions [0,k), parity bit k+i XORs the
data bits selected by column k+i of G. -/
def hammingEncode (n k : Nat) (data : List Bool) : List Bool :=
  (List.range n).map (fun idx =>
    if idx < k then data.getD idx false
    else (List.range k).foldl
      (fun par j => Bool.xor par (data.getD j false && hammingG k j idx)) false)

/-- Result record of HammingCode::decode_with_detection. -/
structure HDecodeResult where
  data : List Bool
  errorDetected : Bool
  errorPosition : Nat
deriving Repr, DecidableEq

/-- HammingCode::decode_with_detection: look the syndrome up in the table;
if the stored position is below n flip it and extract the data bits,
otherwise return the raw data bits. -/
def hammingDecodeDet (n k : Nat) (recv : List Bool) : HDecodeResult :=
  let s := hammingSyndrome n k recv
  let ep := (hammingTable n k).getD s n
  if ep < n then
    { data := (flipBit recv ep).take k, errorDetected := true, errorPosition := ep }
  else
    { data := recv.take k, errorDetected := false, errorPosition := ep }

/-- BCH codec state: template parameters m and t, the field and the
generator polynomial built by the constructor. -/
structure BCHCode where
  m : Nat
  t : Nat
  gf : GF
  gen : List Nat

/-- code_length = 2^m - 1. -/
def BCHCode.n (c : BCHCode) : Nat := 2 ^ c.m - 1

/-- parity_length = m * t (the definitional constant of the source). -/
def BCHCode.pl (c : BCHCode) : Nat := c.m * c.t

/-- data_length = code_length - parity_length. -/
def BCHCode.k (c : BCHCode) : Nat := c.n - c.pl

/-- Insertion of one element into a sorted list (helper for the model of
std::sort below). -/
def insertSorted (x : Nat) : List Nat → List Nat
  | [] => [x]
  | y :: ys => if x ≤ y then x :: y :: ys else y :: insertSorted x ys

/-- std::sort over the root list, modelled as insertion sort (structural
recursion so that kernel reduction can evaluate it; the output, the
sorted permutation, is the same). -/
def sortNat (l : List Nat) : List Nat := l.foldr insertSorted []

/-- std::unique on a sorted list: drop consecutive duplicates. -/
def uniqSorted : List Nat → List Nat
  | [] => []
  | [x] => [x]
  | x :: y :: ys => if x = y then uniqSorted (y :: ys) else x :: uniqSorted (y :: ys)

/-- Root list of BCHCode::generate_bch_polynomial: alpha^i for
i = 1 .. 2t, then std::sort and std::unique with erase. -/
def bchRoots (gf : GF) (t : Nat) : List Nat :=
  uniqSorted (sortNat ((List.range (2 * t)).map (fun i => gf.power 2 (i + 1))))

/-- Generator polynomial of BCHCode::generate_bch_polynomial: product of
(x - root) over the deduplicated roots, starting from 1. -/
def bchGen (gf : GF) (t : Nat) : List Nat :=
  (bchRoots gf t).foldl (fun g root => polyMul gf g [root, 1]) [1]

/-- BCHCode constructor: build the field, then the generator polynomial. -/
def bchBuild (m t poly : Nat) : BCHCode :=
  let gf := gfBuild m poly
  { m := m, t := t, gf := gf, gen := bchGen gf t }

/-- BCHCode::encode: shift the data polynomial up by parity_length, reduce
modulo the generator, then place the data bits at the high positions and
one bit per remainder coefficient (nonzero collapses to 1) at the low
positions. -/
def bchEncode (c : BCHCode) (data : List Bool) : List Bool :=
  let dataPoly := polyNorm (data.map (fun b => if b then 1 else 0))
  let shifted := polyNorm
    (List.replicate c.pl 0 ++ (List.range c.k).map (fun i => polyGet dataPoly i))
  let rem := (polyDivMod c.gf shifted c.gen).2
  (List.range c.n).map (fun i =>
    if i < c.pl then polyGet rem i != 0
    else data.getD (i - c.pl) false)

/-- BCHCode::calculate_syndromes: received bits as 0/1 coefficients,
evaluated at alpha^(i+1) for i in [0, 2t). -/
def bchSyndromes (c : BCHCode) (recv : List Bool) : List Nat :=
  let rp := polyNorm (recv.map (fun b => if b then 1 else 0))
  (List.range (2 * c.t)).map (fun i => polyEval c.gf rp (c.gf.power 2 (i + 1)))

/-- Berlekamp-Massey discrepancy: d = S[idx] + sum over i = 1..L of
C[i] * S[idx - i] (shared by the BCH and RS decoders, whose loops are
textually identical here). -/
def bmDiscrepancy (gf : GF) (C S : List Nat) (L idx : Nat) : Nat :=
  (List.range L).foldl
    (fun d i => gf.add d (gf.multiply (polyGet C (i + 1)) (polyGet S (idx - (i + 1)))))
    (polyGet S idx)

/-- State of BCHCode::berlekamp_massey. -/
structure BMState where
  C : List Nat
  B : List Nat
  L : Nat
  pos : Nat
  b : Nat

/-- One syndrome step of BCHCode::berlekamp_massey. -/
def bchBMStep (gf : GF) (S : List Nat) (st : BMState) (idx : Nat) : BMState :=
  let d := bmDiscrepancy gf st.C S st.L idx
  if d = 0 then { st with pos := st.pos + 1 }
  else
    let T := st.C
    let coeff := gf.divideD d st.b
    let corr := List.replicate st.pos 0 ++ polyScale gf coeff st.B
    let C2 := polyAdd gf st.C corr
    if 2 * st.L ≤ idx then
      { C := C2, B := T, L := idx + 1 - st.L, pos := 1, b := d }
    else
      { st with C := C2, pos := st.pos + 1 }

/-- BCHCode::berlekamp_massey over the syndrome list. -/
def bchBM (gf : GF) (S : List Nat) : List Nat :=
  ((List.range S.length).foldl (bchBMStep gf S)
    { C := [1], B := [1], L := 0, pos := 1, b := 1 }).C

/-- Chien search shared by BCHCode::chien_search and
ReedSolomonCode::chien_search: position i is an error position when the
locator vanishes at alpha^(n-1-i). -/
def chien (gf : GF) (n : Nat) (el : List Nat) : List Nat :=
  (List.range n).filter (fun i => polyEval gf el (gf.power 2 (n - 1 - i)) == 0)

/-- Result record of BCHCode::decode. -/
structure BCHDecodeResult where
  data : List Bool
  success : Bool
  errorsCorrected : Nat
  errorPositions : List Nat
deriving Repr, DecidableEq

/-- Data slice of a BCH word: bits [parity_length, n). -/
def bchExtract (c : BCHCode) (w : List Bool) : List Bool :=
  (List.range c.k).map (fun i => w.getD (i + c.pl) false)

/-- BCHCode::decode: syndromes, zero-syndrome early return, Berlekamp-
Massey, Chien search, failure when more than t positions are found, else
flip the found bits and extract the data slice. -/
def bchDecode (c : BCHCode) (recv : List Bool) : BCHDecodeResult :=
  let S := bchSyndromes c recv
  if S.all (fun s => s == 0) then
    { data := bchExtract c recv, success := true, errorsCorrected := 0, errorPositions := [] }
  else
    let el := bchBM c.gf S
    let pos := chien c.gf c.n el
    if c.t < pos.length then
      { data := bchExtract c recv, success := false, errorsCorrected := 0, errorPositions := [] }
    else
      let corrected := pos.foldl (fun w p => flipBit w p) recv
      { data := bchExtract c corrected, success := true,
        errorsCorrected := pos.length, errorPositions := pos }

/-- Reed-Solomon codec state: template parameters n, k, m, the field and
the generator polynomial. -/
structure RSCode where
  n : Nat
  k : Nat
  m : Nat
  gf : GF
  gen : List Nat

/-- parity_length = n - k. -/
def RSCode.pl (c : RSCode) : Nat := c.n - c.k

/-- error_correction_capability = (n - k) / 2. -/
def RSCode.t (c : RSCode) : Nat := (c.n - c.k) / 2

/-- ReedSolomonCode::get_default_primitive_poly. -/
def rsDefaultPoly (m : Nat) : Nat :=
  if m = 8 then 0x11D else if m = 10 then 0x409 else if m = 12 then 0x1053 else 0x3

/-- ReedSolomonCode::generate_polynomial: product of (x - alpha^i) for
i = 1 .. n-k, starting from 1. -/
def rsGen (gf : GF) (pl : Nat) : List Nat :=
  (List.range pl).foldl (fun g i => polyMul gf g [gf.power 2 (i + 1), 1]) [1]

/-- ReedSolomonCode constructor: build the field and the generator. -/
def rsBuild (n k m poly : Nat) : RSCode :=
  let gf := gfBuild m poly
  { n := n, k := k, m := m, gf := gf, gen := rsGen gf (n - k) }

/-- ReedSolomonCode::encode: data in positions [0,k), remainder of the
shifted data polynomial modulo the generator in positions [k,n). -/
def rsEncode (c : RSCode) (data : List Nat) : List Nat :=
  let rem := polyModRS c.gf (List.replicate c.pl 0 ++ data) c.gen
  (List.range c.n).map (fun i =>
    if i < c.k then data.getD i 0 else polyGet rem (i - c.k))

/-- ReedSolomonCode::calculate_syndromes: syndrome i accumulates
received[j] * alpha^((i+1) * j) with a running power. -/
def rsSyndromes (c : RSCode) (recv : List Nat) : List Nat :=
  (List.range c.pl).map (fun i =>
    let ap := c.gf.power 2 (i + 1)
    ((List.range c.n).foldl
      (fun scp j =>
        (c.gf.add scp.1 (c.gf.multiply (recv.getD j 0) scp.2), c.gf.multiply scp.2 ap))
      (0, 1)).1)

/-- State of ReedSolomonCode::berlekamp_massey (no previous-discrepancy
variable: the source multiplies by the inverse of the current discrepancy). -/
structure RSBMState where
  C : List Nat
  B : List Nat
  L : Nat
  pos : Nat

/-- One syndrome step of ReedSolomonCode::berlekamp_massey: on nonzero
discrepancy d it adds d^-1 * B[idx - pos] into C[idx] for idx in
[pos, pl+1). -/
def rsBMStep (gf : GF) (pl : Nat) (S : List Nat) (st : RSBMState) (i : Nat) : RSBMState :=
  let d := bmDiscrepancy gf st.C S st.L i
  if d = 0 then { st with pos := st.pos + 1 }
  else
    let T := st.C
    let dinv := gf.inverseD d
    let C2 := (List.range (pl + 1)).map (fun idx =>
      if st.pos ≤ idx then
        gf.add (polyGet st.C idx) (gf.multiply dinv (polyGet st.B (idx - st.pos)))
      else polyGet st.C idx)
    if 2 * st.L ≤ i then
      { C := C2, B := T, L := i + 1 - st.L, pos := 1 }
    else
      { st with C := C2, pos := st.pos + 1 }

/-- ReedSolomonCode::berlekamp_massey: pl iterations, then the first L+1
entries of C as a Polynomial (whose constructor normalizes). -/
def rsBM (gf : GF) (pl : Nat) (S : List Nat) : List Nat :=
  let st := (List.range pl).foldl (rsBMStep gf pl S)
    { C := 1 :: List.replicate pl 0, B := 1 :: List.replicate pl 0, L := 0, pos := 1 }
  polyNorm (st.C.take (st.L + 1))

/-- Formal-derivative polynomial built by ReedSolomonCode::forney_algorithm:
the odd-indexed locator coefficients, in order (a Polynomial value, so
normalized; an empty pick yields the zero polynomial). -/
def forneyDerivative (el : List Nat) : List Nat :=
  polyNorm (((List.range (polyDeg el + 1)).filter (fun i => i % 2 == 1)).map
    (fun i => polyGet el i))

/-- Forney denominator at error position p: the derivative evaluated at
alpha^(n-1-p). -/
def forneyDenominator (gf : GF) (n : Nat) (el : List Nat) (p : Nat) : Nat :=
  polyEval gf (forneyDerivative el) (gf.power 2 (n - 1 - p))

/-- Error-evaluator polynomial of ReedSolomonCode::forney_algorithm: the
syndromes reversed, taken as a Polynomial, times the locator (no
truncation modulo x^2t). -/
def forneyEvaluator (gf : GF) (S el : List Nat) : List Nat :=
  polyMul gf (polyNorm S.reverse) el

/-- ReedSolomonCode::forney_algorithm: each error value is the evaluator
over the derivative at alpha^(n-1-p); when the denominator is zero the
value keeps its zero initialisation. -/
def rsForney (c : RSCode) (S el : List Nat) (positions : List Nat) : List Nat :=
  let ee := forneyEvaluator c.gf S el
  positions.map (fun p =>
    let x := c.gf.power 2 (c.n - 1 - p)
    let num := polyEval c.gf ee x
    let den := forneyDenominator c.gf c.n el p
    if den ≠ 0 then c.gf.divideD num den else 0)

/-- Result record of ReedSolomonCode::decode; on the too-many-errors path
the value-initialized result carries an all-zero data word. -/
structure RSDecodeResult where
  data : List Nat
  success : Bool
  errorsCorrected : Nat
  errorPositions : List Nat
deriving Repr, DecidableEq

/-- ReedSolomonCode::decode: syndromes, clean early return, Berlekamp-
Massey, Chien search, failure when more than t positions are found, else
Forney values added into the found positions and the data prefix copied
out. -/
def rsDecode (c : RSCode) (recv : List Nat) : RSDecodeResult :=
  let S := rsSyndromes c recv
  if S.any (fun s => s != 0) then
    let el := rsBM c.gf c.pl S
    let pos := chien c.gf c.n el
    if c.t < pos.length then
      { data := List.replicate c.k 0, success := false, errorsCorrected := 0,
        errorPositions := [] }
    else
      let ev := rsForney c S el pos
      let corrected := (pos.zip ev).foldl
        (fun w pe => w.set pe.1 (c.gf.add (w.getD pe.1 0) pe.2)) recv
      { data := corrected.take c.k, success := true, errorsCorrected := pos.length,
        errorPositions := pos }
  else
    { data := recv.take c.k, success := true, errorsCorrected := 0, errorPositions := [] }

/-- BCHCode constructor modelled with the same error channel as the field
constructor: it only builds the field and the generator and has no
failure path. -/
def bchConstruct (m t poly : Nat) : Except String BCHCode := Except.ok (bchBuild m t poly)

/-- ReedSolomonCode constructor modelled with the same error channel: the
geometry constraints live in a compile-time requires-clause and the
constructor body performs no validation. -/
def rsConstruct (n k m poly : Nat) : Except String RSCode := Except.ok (rsBuild n k m poly)

/-- GF(2^3) with the default primitive polynomial 0xB. -/
def gf3 : GF := gfBuild 3 0xB

/-- GF(2^4) with the default primitive polynomial 0x13. -/
def gf4 : GF := gfBuild 4 0x13

/-- GF(2^5) with the default primitive polynomial 0x25. -/
def gf5 : GF := gfBuild 5 0x25

/-- GF(2^6) with the default primitive polynomial 0x43. -/
def gf6 : GF := gfBuild 6 0x43

/-- GF(2^7) with the default primitive polynomial 0x89. -/
def gf7 : GF := gfBuild 7 0x89

/-- GF(2^8) with the default primitive polynomial 0x11D. -/
def gf8 : GF := gfBuild 8 0x11D

/-- GF(2^9) with the fallback default polynomial 0x203 = x^9 + x + 1. -/
def gf9 : GF := gfBuild 9 0x203

/-- GF(2^10) with the default primitive polynomial 0x409. -/
def gf10 : GF := gfBuild 10 0x409

/-- GF(2^11) with the fallback default polynomial 0x803 = x^11 + x + 1. -/
def gf11 : GF := gfBuild 11 0x803

/-- GF(2^12) with the default primitive polynomial 0x1053. -/
def gf12 : GF := gfBuild 12 0x1053

/-- The BCHCode instance with m = 4 and t = 1 (the BCH_15_7_3 alias). -/
def bch41 : BCHCode := bchBuild 4 1 0x13

/-- A Reed-Solomon instance with n = 7, k = 3 over GF(2^3) and the
primitive polynomial 0xB. -/
def rs733 : RSCode := rsBuild 7 3 3 0xB

/-- Data word 1011 for the Hamming(7,4) scenario, bit i at index i. -/
def hammData : List Bool := [true, false, true, true]

/-- An 11-bit data word for the BCH m=4, t=1 codec (k = 11). -/
def bchData : List Bool :=
  [true, false, true, true, false, true, false, true, false, true, false]

/-- The ring laws of the table-driven field operations on the carrier
[0, field_size), as the specification guarantees them for a field built
from a primitive polynomial (what multiply must satisfy for polynomial
evaluation to be a homomorphism). -/
structure GFRingLaws (gf : GF) : Prop where
  closed : ∀ a, a < gf.fieldSize → ∀ b, b < gf.fieldSize → gf.multiply a b < gf.fieldSize
  comm : ∀ a, a < gf.fieldSize → ∀ b, b < gf.fieldSize → gf.multiply a b = gf.multiply b a
  assoc : ∀ a, a < gf.fieldSize → ∀ b, b < gf.fieldSize → ∀ c, c < gf.fieldSize →
    gf.multiply (gf.multiply a b) c = gf.multiply a (gf.multiply b c)
  dist : ∀ a, a < gf.fieldSize → ∀ b, b < gf.fieldSize → ∀ c, c < gf.fieldSize →
    gf.multiply a (b ^^^ c) = gf.multiply a b ^^^ gf.multiply a c
  one : ∀ a, a < gf.fieldSize → gf.multiply 1 a = a

/-- Bounded table check: exp inverts log on every nonzero element up to
the fuel bound (bare Nat.rec so kernel reduction is iterative). -/
def checkExpLogAll (gf : GF) (fuel : Nat) : Bool :=
  Nat.rec true (fun a ih => (gf.expAt (gf.logAt (a + 1)) == a + 1) && ih) fuel

set_option maxHeartbeats 1000000 in
/-- C1: single-error correction fails on all three codecs.  Hamming(7,4):
flipping data bit 0 of encode(1011) decodes to error position 4 (a parity
position) and wrong data, because the column of H for data bit 0 equals
the column for parity bit 0 and the syndrome table keeps the later
position.  BCH m=4 t=1: flipping bit 0 of a clean codeword reports
position 11 and wrong data.  RS(7,3): corrupting symbol 2 reports
positions [0, 1] and wrong data. -/
theorem C1_single_error_decoding_fails :
    ((hammingDecodeDet 7 4 (flipBit (hammingEncode 7 4 hammData) 0)).errorPosition = 4
      ∧ (hammingDecodeDet 7 4 (flipBit (hammingEncode 7 4 hammData) 0)).data ≠ hammData)
  ∧ ((bchDecode bch41 (flipBit (bchEncode bch41 bchData) 0)).success = true
      ∧ (bchDecode bch41 (flipBit (bchEncode bch41 bchData) 0)).errorPositions = [11]
      ∧ (bchDecode bch41 (flipBit (bchEncode bch41 bchData) 0)).data ≠ bchData)
  ∧ ((rsDecode rs733 ((rsEncode rs733 [1, 2, 3]).set 2 2)).success = true
      ∧ (rsDecode rs733 ((rsEncode rs733 [1, 2, 3]).set 2 2)).errorPositions = [0, 1]
      ∧ (rsDecode rs733 ((rsEncode rs733 [1, 2, 3]).set 2 2)).data ≠ [1, 2, 3]) := by
  decide

set_option maxHeartbeats 1000000 in
/-- C2: the error-free round trip fails for the BCH codec: the encoder
reduces modulo a generator of degree 2t = 2 while reserving parity_length
= m t = 4 low positions and collapses field remainder coefficients to
single bits, so even the unmodified codeword encode(d) has nonzero
syndromes; decoding it performs a phantom correction and returns wrong
data with success = true. -/
theorem C2_bch_roundtrip_fails :
    bchSyndromes bch41 (bchEncode bch41 bchData) ≠ [0, 0]
  ∧ (bchDecode bch41 (bchEncode bch41 bchData)).success = true
  ∧ (bchDecode bch41 (bchEncode bch41 bchData)).errorsCorrected = 1
  ∧ (bchDecode bch41 (bchEncode bch41 bchData)).errorPositions = [10]
  ∧ (bchDecode bch41 (bchEncode bch41 bchData)).data ≠ bchData := by
  decide

set_option maxHeartbeats 1000000 in
/-- C3: up-to-t correction fails for the RS codec: a single corrupted
symbol (weight 1, t = 2) in position 1 is decoded as two errors at
positions 0 and 3 with success = true and wrong data. -/
theorem C3_rs_weight_one_miscorrected :
    rsEncode rs733 [1, 2, 3] = [1, 2, 3, 0, 2, 0, 1]
  ∧ (rsDecode rs733 ((rsEncode rs733 [1, 2, 3]).set 1 3)).success = true
  ∧ (rsDecode rs733 ((rsEncode rs733 [1, 2, 3]).set 1 3)).errorsCorrected = 2
  ∧ (rsDecode rs733 ((rsEncode rs733 [1, 2, 3]).set 1 3)).errorPositions = [0, 3]
  ∧ (rsDecode rs733 ((rsEncode rs733 [1, 2, 3]).set 1 3)).data ≠ [1, 2, 3] := by
  decide

/-- C4: divide(1, 2) in GF(2^3).  log 1 = 0 and log 2 = 1, so the uint32
difference wraps and the code returns exp of the wrapped index, 3, while
the exact-arithmetic index of the specification gives 5; 5 times 2 is 1
as division requires, 3 times 2 is 6. -/
theorem C4_divide_wraps_uint32 :
    gf3.divide 1 2 = Except.ok 3
  ∧ gf3.expAt ((gf3.logAt 1 + (gf3.fieldSize - 1) - gf3.logAt 2) % (gf3.fieldSize - 1)) = 5
  ∧ gf3.multiply 3 2 = 6
  ∧ gf3.multiply 5 2 = 1
  ∧ gf3.divide 1 0 = Except.error "Division by zero in Galois field"
  ∧ gf3.divide 0 2 = Except.ok 0 := by
  refine ⟨rfl, by decide, by decide, by decide, rfl, rfl⟩

/-- C5 counterexample: for the BCH codec with m = 4, t = 1 the generator
polynomial has degree 2 while parity_length is m t = 4. -/
theorem C5_counterexample :
    polyDeg bch41.gen = 2 ∧ bch41.pl = 4 ∧ polyDeg bch41.gen ≠ bch41.pl := by
  decide

set_option maxHeartbeats 1000000 in
/-- C5 amended: for each predefined BCH configuration the generator
product over the 2t pairwise distinct roots alpha^1 .. alpha^2t has
degree exactly 2t, which is strictly below parity_length = m t. -/
theorem C5_amended_generator_degree :
    (polyDeg (bchBuild 4 1 0x13).gen = 2 * 1 ∧ polyDeg (bchBuild 4 1 0x13).gen < (bchBuild 4 1 0x13).pl)
  ∧ (polyDeg (bchBuild 4 2 0x13).gen = 2 * 2 ∧ polyDeg (bchBuild 4 2 0x13).gen < (bchBuild 4 2 0x13).pl)
  ∧ (polyDeg (bchBuild 5 1 0x25).gen = 2 * 1 ∧ polyDeg (bchBuild 5 1 0x25).gen < (bchBuild 5 1 0x25).pl)
  ∧ (polyDeg (bchBuild 5 2 0x25).gen = 2 * 2 ∧ polyDeg (bchBuild 5 2 0x25).gen < (bchBuild 5 2 0x25).pl)
  ∧ (polyDeg (bchBuild 6 1 0x43).gen = 2 * 1 ∧ polyDeg (bchBuild 6 1 0x43).gen < (bchBuild 6 1 0x43).pl)
  ∧ (polyDeg (bchBuild 7 1 0x89).gen = 2 * 1 ∧ polyDeg (bchBuild 7 1 0x89).gen < (bchBuild 7 1 0x89).pl) := by
  decide

/-- C7 counterexample: constructing a field with the polynomial 0x3,
which is not primitive of degree 3, succeeds and produces a field value
(whose generator 2 then fails the primitivity test). -/
theorem C7_counterexample :
    gfConstruct 3 0x3 = Except.ok (gfBuild 3 0x3)
  ∧ (gfBuild 3 0x3).isPrimitive 2 = false := by
  exact ⟨rfl, by decide⟩

/-- C7 amended: no constructor validates its parameters at run time; every
construction returns a value (geometry for Hamming and RS is restricted
only by compile-time template constraints, and a non-primitive supplied
polynomial is accepted, producing a field with broken tables). -/
theorem C7_amended_no_runtime_validation :
    (∀ m poly : Nat, gfConstruct m poly = Except.ok (gfBuild m poly))
  ∧ (∀ n k m poly : Nat, rsConstruct n k m poly = Except.ok (rsBuild n k m poly))
  ∧ (∀ m t poly : Nat, bchConstruct m t poly = Except.ok (bchBuild m t poly)) :=
  ⟨fun _ _ => rfl, fun _ _ _ _ => rfl, fun _ _ _ => rfl⟩

/-- C7 amended, instantiated at concrete parameters. -/
theorem C7_amended_witness :
    gfConstruct 4 0x13 = Except.ok (gfBuild 4 0x13) :=
  C7_amended_no_runtime_validation.1 4 0x13

/-- Unfolding equation of checkExpLogAll at a successor. -/
theorem checkExpLogAll_succ (gf : GF) (a : Nat) :
    checkExpLogAll gf (a + 1) = ((gf.expAt (gf.logAt (a + 1)) == a + 1) && checkExpLogAll gf a) :=
  rfl

/-- The bounded table check implies the pointwise statement. -/
theorem checkExpLogAll_sound (gf : GF) :
    ∀ fuel, checkExpLogAll gf fuel = true →
      ∀ a, 0 < a → a ≤ fuel → gf.expAt (gf.logAt a) = a := by
  intro fuel
  induction fuel with
  | zero => intro _ a ha ha2; omega
  | succ n ih =>
    intro h a ha ha2
    rw [checkExpLogAll_succ, Bool.and_eq_true] at h
    rcases Nat.lt_or_ge a (n + 1) with hlt | hge
    · exact ih h.2 a ha (by omega)
    · have : a = n + 1 := by omega
      subst this
      exact eq_of_beq h.1

/-- C8 counterexample: the fallback default polynomials for m = 9 and
m = 11 (x^m + x + 1) are not primitive, and the invariants fail: for
m = 9, exp of log of 7 is 1 rather than 7; for m = 11 the final loop
iteration overwrites exp at index 0 with 869, so exp at 0 is not 1; the
source primitivity test also rejects the generator 2 in both fields. -/
theorem C8_counterexample :
    getDefaultPrimitive 9 = 0x203
  ∧ gf9.expAt (gf9.logAt 7) = 1
  ∧ getDefaultPrimitive 11 = 0x803
  ∧ gf11.expAt 0 = 869
  ∧ gf9.isPrimitive 2 = false
  ∧ gf11.isPrimitive 2 = false := by
  refine ⟨by decide, by decide, by decide, by decide, by decide, by decide⟩

set_option maxHeartbeats 8000000 in
/-- C8 amended: for m in 3, 4, 5, 6, 7, 8, 10, 12 - the supported sizes
whose default polynomial is listed in the interface table - the table
invariants hold after construction: exp at 0 is 1, exp inverts log on
every nonzero element, and the generator 2 passes the order test of
is_primitive; the fallback defaults for m = 9 and m = 11 violate them. -/
theorem C8_amended_default_table_invariants :
    (gf3.expAt 0 = 1 ∧ (∀ a, 0 < a → a < 2 ^ 3 → gf3.expAt (gf3.logAt a) = a)
      ∧ gf3.isPrimitive 2 = true)
  ∧ (gf4.expAt 0 = 1 ∧ (∀ a, 0 < a → a < 2 ^ 4 → gf4.expAt (gf4.logAt a) = a)
      ∧ gf4.isPrimitive 2 = true)
  ∧ (gf5.expAt 0 = 1 ∧ (∀ a, 0 < a → a < 2 ^ 5 → gf5.expAt (gf5.logAt a) = a)
      ∧ gf5.isPrimitive 2 = true)
  ∧ (gf6.expAt 0 = 1 ∧ (∀ a, 0 < a → a < 2 ^ 6 → gf6.expAt (gf6.logAt a) = a)
      ∧ gf6.isPrimitive 2 = true)
  ∧ (gf7.expAt 0 = 1 ∧ (∀ a, 0 < a → a < 2 ^ 7 → gf7.expAt (gf7.logAt a) = a)
      ∧ gf7.isPrimitive 2 = true)
  ∧ (gf8.expAt 0 = 1 ∧ (∀ a, 0 < a → a < 2 ^ 8 → gf8.expAt (gf8.logAt a) = a)
      ∧ gf8.isPrimitive 2 = true)
  ∧ (gf10.expAt 0 = 1 ∧ (∀ a, 0 < a → a < 2 ^ 10 → gf10.expAt (gf10.logAt a) = a)
      ∧ gf10.isPrimitive 2 = true)
  ∧ (gf12.expAt 0 = 1 ∧ (∀ a, 0 < a → a < 2 ^ 12 → gf12.expAt (gf12.logAt a) = a)
      ∧ gf12.isPrimitive 2 = true) := by
  refine ⟨⟨by decide, fun a ha hb => checkExpLogAll_sound gf3 (2 ^ 3 - 1) (by decide) a ha (by omega), by decide⟩,
          ⟨by decide, fun a ha hb => checkExpLogAll_sound gf4 (2 ^ 4 - 1) (by decide) a ha (by omega), by decide⟩,
          ⟨by decide, fun a ha hb => checkExpLogAll_sound gf5 (2 ^ 5 - 1) (by decide) a ha (by omega), by decide⟩,
          ⟨by decide, fun a ha hb => checkExpLogAll_sound gf6 (2 ^ 6 - 1) (by decide) a ha (by omega), by decide⟩,
          ⟨by decide, fun a ha hb => checkExpLogAll_sound gf7 (2 ^ 7 - 1) (by decide) a ha (by omega), by decide⟩,
          ⟨by decide, fun a ha hb => checkExpLogAll_sound gf8 (2 ^ 8 - 1) (by decide) a ha (by omega), by decide⟩,
          ⟨by decide, fun a ha hb => checkExpLogAll_sound gf10 (2 ^ 10 - 1) (by decide) a ha (by omega), by decide⟩,
          ⟨by decide, fun a ha hb => checkExpLogAll_sound gf12 (2 ^ 12 - 1) (by decide) a ha (by omega), by decide⟩⟩

/-- C8 amended, sampled: the m = 8 invariants applied at the element 77. -/
theorem C8_amended_witness :
    gf8.expAt (gf8.logAt 77) = 77 :=
  C8_amended_default_table_invariants.2.2.2.2.2.1.2.1 77 (by decide) (by decide)

/-- C6 counterexample: a received word with nonzero syndromes whose error
locator is 1 + x^2; its derivative polynomial is the zero polynomial, so
the Forney denominator at the single Chien root (position 6) is zero, yet
the decoder returns success = true and reports position 6 as corrected
(with an error value silently left at zero). -/
theorem C6_counterexample :
    rsSyndromes rs733 [2, 2, 0, 0, 0, 0, 0] = [6, 1, 4, 5]
  ∧ rsBM rs733.gf rs733.pl (rsSyndromes rs733 [2, 2, 0, 0, 0, 0, 0]) = [1, 0, 1]
  ∧ chien rs733.gf rs733.n [1, 0, 1] = [6]
  ∧ forneyDenominator rs733.gf rs733.n [1, 0, 1] 6 = 0
  ∧ (rsDecode rs733 [2, 2, 0, 0, 0, 0, 0]).success = true
  ∧ (rsDecode rs733 [2, 2, 0, 0, 0, 0, 0]).errorPositions = [6] := by
  refine ⟨by decide, by decide, by decide, by decide, by decide, by decide⟩

/-- C6 amended: on any received word with at least one nonzero syndrome,
the decode result has success = false exactly when the number of Chien
roots of the Berlekamp-Massey locator exceeds the capacity t; a zero
Forney denominator never causes failure (the affected position keeps an
error value of zero and is still reported as corrected). -/
theorem C6_amended_failure_iff_too_many_roots (c : RSCode) (recv : List Nat)
    (h : (rsSyndromes c recv).any (fun s => s != 0) = true) :
    ((rsDecode c recv).success = false ↔
      c.t < (chien c.gf c.n (rsBM c.gf c.pl (rsSyndromes c recv))).length) := by
  unfold rsDecode
  rw [if_pos h]
  by_cases hl : c.t < (chien c.gf c.n (rsBM c.gf c.pl (rsSyndromes c recv))).length
  · rw [if_pos hl]
    exact ⟨fun _ => hl, fun _ => rfl⟩
  · rw [if_neg hl]
    exact ⟨fun hfalse => absurd hfalse (by simp), fun hlt => absurd hlt hl⟩

/-- C6 amended, instantiated at the counterexample word. -/
theorem C6_amended_witness :
    (rsDecode rs733 [2, 2, 0, 0, 0, 0, 0]).success = false ↔
      rs733.t <
        (chien rs733.gf rs733.n
          (rsBM rs733.gf rs733.pl (rsSyndromes rs733 [2, 2, 0, 0, 0, 0, 0]))).length :=
  C6_amended_failure_iff_too_many_roots rs733 [2, 2, 0, 0, 0, 0, 0] (by decide)

/-- The packing base is positive. -/
theorem cellB_pos : 0 < cellB := by decide

/-- Every cell read is below the packing base. -/
theorem getEntry_lt (T i : Nat) : getEntry T i < cellB :=
  Nat.mod_lt _ cellB_pos

/-- Cells of the empty table are zero. -/
theorem getEntry_zero (i : Nat) : getEntry 0 i = 0 := by
  simp [getEntry]

/-- Base-cellB digit decomposition of a packed table around cell i. -/
theorem digit_decomp (T i : Nat) :
    T = T / cellB ^ (i + 1) * cellB ^ (i + 1) + getEntry T i * cellB ^ i + T % cellB ^ i := by
  have h1 : cellB ^ i * (T / cellB ^ i) + T % cellB ^ i = T := Nat.div_add_mod T (cellB ^ i)
  have h2 : cellB * (T / cellB ^ i / cellB) + T / cellB ^ i % cellB = T / cellB ^ i :=
    Nat.div_add_mod (T / cellB ^ i) cellB
  calc T = T / cellB ^ i * cellB ^ i + T % cellB ^ i := by rw [Nat.mul_comm]; exact h1.symm
    _ = (T / cellB ^ i / cellB * cellB + T / cellB ^ i % cellB) * cellB ^ i + T % cellB ^ i := by
        rw [show T / cellB ^ i / cellB * cellB + T / cellB ^ i % cellB
              = cellB * (T / cellB ^ i / cellB) + T / cellB ^ i % cellB by ring, h2]
    _ = T / cellB ^ i / cellB * (cellB ^ i * cellB) + T / cellB ^ i % cellB * cellB ^ i
          + T % cellB ^ i := by ring
    _ = T / cellB ^ (i + 1) * cellB ^ (i + 1) + getEntry T i * cellB ^ i + T % cellB ^ i := by
        rw [pow_succ, Nat.div_div_eq_div_mul]
        rfl

/-- Writing cell i replaces the middle digit of the decomposition. -/
theorem setEntry_eq (T i x : Nat) :
    setEntry T i x = T / cellB ^ (i + 1) * cellB ^ (i + 1) + x * cellB ^ i + T % cellB ^ i := by
  have h := digit_decomp T i
  unfold setEntry
  generalize hA : T / cellB ^ (i + 1) * cellB ^ (i + 1) = A at *
  generalize hD : getEntry T i * cellB ^ i = D at *
  generalize hL : T % cellB ^ i = L at *
  generalize hX : x * cellB ^ i = X at *
  omega

/-- A multiple of the next power does not change digit j. -/
theorem getEntry_add_mul_high (M lo j : Nat) :
    getEntry (M * cellB ^ (j + 1) + lo) j = getEntry lo j := by
  unfold getEntry
  rw [show M * cellB ^ (j + 1) + lo = cellB ^ j * (M * cellB) + lo by rw [pow_succ]; ring]
  rw [Nat.mul_add_div (pow_pos cellB_pos j)]
  rw [show M * cellB + lo / cellB ^ j = cellB * M + lo / cellB ^ j by ring, Nat.mul_add_mod]

/-- Digit j only depends on the value modulo the j+1 power. -/
theorem getEntry_eq_of_mod_eq (N M j : Nat)
    (h : N % cellB ^ (j + 1) = M % cellB ^ (j + 1)) : getEntry N j = getEntry M j := by
  have hN : getEntry N j = getEntry (N % cellB ^ (j + 1)) j := by
    conv_lhs =>
      rw [← Nat.div_add_mod N (cellB ^ (j + 1)),
        Nat.mul_comm (cellB ^ (j + 1)) (N / cellB ^ (j + 1))]
    exact getEntry_add_mul_high (N / cellB ^ (j + 1)) (N % cellB ^ (j + 1)) j
  have hM : getEntry M j = getEntry (M % cellB ^ (j + 1)) j := by
    conv_lhs =>
      rw [← Nat.div_add_mod M (cellB ^ (j + 1)),
        Nat.mul_comm (cellB ^ (j + 1)) (M / cellB ^ (j + 1))]
    exact getEntry_add_mul_high (M / cellB ^ (j + 1)) (M % cellB ^ (j + 1)) j
  rw [hN, hM, h]

/-- An additive part below the i+1 power does not reach digits at or above
i+1. -/
theorem getEntry_mul_add_low (hi s i j : Nat) (hs : s < cellB ^ (i + 1)) (hj : i + 1 ≤ j) :
    getEntry (hi * cellB ^ (i + 1) + s) j = getEntry hi (j - (i + 1)) := by
  unfold getEntry
  have hsplit : cellB ^ j = cellB ^ (i + 1) * cellB ^ (j - (i + 1)) := by
    rw [← pow_add]
    congr 1
    omega
  rw [hsplit, ← Nat.div_div_eq_div_mul]
  rw [show hi * cellB ^ (i + 1) + s = cellB ^ (i + 1) * hi + s by ring]
  rw [Nat.mul_add_div (pow_pos cellB_pos (i + 1)), Nat.div_eq_of_lt hs, Nat.add_zero]

/-- Reading the cell just written returns the written value. -/
theorem getEntry_setEntry_self (T i x : Nat) (hx : x < cellB) :
    getEntry (setEntry T i x) i = x := by
  rw [setEntry_eq]
  unfold getEntry
  rw [show T / cellB ^ (i + 1) * cellB ^ (i + 1) + x * cellB ^ i + T % cellB ^ i
        = cellB ^ i * (T / cellB ^ (i + 1) * cellB + x) + T % cellB ^ i by
      rw [pow_succ]; ring]
  rw [Nat.mul_add_div (pow_pos cellB_pos i),
    Nat.div_eq_of_lt (Nat.mod_lt T (pow_pos cellB_pos i)), Nat.add_zero]
  rw [show T / cellB ^ (i + 1) * cellB + x = cellB * (T / cellB ^ (i + 1)) + x by ring,
    Nat.mul_add_mod]
  exact Nat.mod_eq_of_lt hx

/-- Writing one cell leaves every other cell unchanged. -/
theorem getEntry_setEntry_other (T i j x : Nat) (hx : x < cellB) (hne : j ≠ i) :
    getEntry (setEntry T i x) j = getEntry T j := by
  rcases Nat.lt_or_ge j i with hj | hj
  · have hBi : cellB ^ i = cellB ^ (j + 1) * cellB ^ (i - j - 1) := by
      rw [← pow_add]
      congr 1
      omega
    have hBi1 : cellB ^ (i + 1) = cellB ^ (j + 1) * cellB ^ (i - j) := by
      rw [← pow_add]
      congr 1
      omega
    apply getEntry_eq_of_mod_eq
    rw [setEntry_eq]
    conv_rhs => rw [digit_decomp T i]
    rw [show T / cellB ^ (i + 1) * cellB ^ (i + 1) + x * cellB ^ i + T % cellB ^ i
          = cellB ^ (j + 1) * (T / cellB ^ (i + 1) * cellB ^ (i - j) + x * cellB ^ (i - j - 1))
            + T % cellB ^ i by rw [hBi, hBi1]; ring]
    rw [show T / cellB ^ (i + 1) * cellB ^ (i + 1) + getEntry T i * cellB ^ i + T % cellB ^ i
          = cellB ^ (j + 1)
              * (T / cellB ^ (i + 1) * cellB ^ (i - j) + getEntry T i * cellB ^ (i - j - 1))
            + T % cellB ^ i by rw [hBi, hBi1]; ring]
    rw [Nat.mul_add_mod, Nat.mul_add_mod]
  · have hj2 : i + 1 ≤ j := by omega
    have hmodlt : T % cellB ^ i < cellB ^ i := Nat.mod_lt T (pow_pos cellB_pos i)
    have hxlo : x * cellB ^ i + T % cellB ^ i < cellB ^ (i + 1) := by
      calc x * cellB ^ i + T % cellB ^ i < x * cellB ^ i + cellB ^ i := by omega
        _ = (x + 1) * cellB ^ i := by ring
        _ ≤ cellB * cellB ^ i := Nat.mul_le_mul_right _ hx
        _ = cellB ^ (i + 1) := by rw [pow_succ]; ring
    have hdlo : getEntry T i * cellB ^ i + T % cellB ^ i < cellB ^ (i + 1) := by
      have hd := getEntry_lt T i
      calc getEntry T i * cellB ^ i + T % cellB ^ i < getEntry T i * cellB ^ i + cellB ^ i := by
            omega
        _ = (getEntry T i + 1) * cellB ^ i := by ring
        _ ≤ cellB * cellB ^ i := Nat.mul_le_mul_right _ hd
        _ = cellB ^ (i + 1) := by rw [pow_succ]; ring
    rw [setEntry_eq, Nat.add_assoc, getEntry_mul_add_low _ _ i j hxlo hj2]
    conv_rhs => rw [digit_decomp T i]
    rw [Nat.add_assoc, getEntry_mul_add_low _ _ i j hdlo hj2]

/-- Unfolding of one iteration of the log-table loop (the self-comparison
guard is always true). -/
theorem logLoop_succ (expT n i T : Nat) :
    logLoop expT (n + 1) i T = logLoop expT n (i + 1) (setEntry T (getEntry expT i) i) := by
  have h : (setEntry T (getEntry expT i) i == setEntry T (getEntry expT i) i) = true :=
    beq_self_eq_true _
  show (if setEntry T (getEntry expT i) i == setEntry T (getEntry expT i) i then
          logLoop expT n (i + 1) (setEntry T (getEntry expT i) i)
        else setEntry T (getEntry expT i) i) = _
  rw [h]
  simp

/-- All cells of the log table stay below the bound c when the loop only
writes iteration indices below c (the table is write-bounded). -/
theorem logLoop_entries_lt (expT c : Nat) (hc : c ≤ cellB) :
    ∀ fuel i T, (∀ j, getEntry T j < c) → i + fuel ≤ c →
      ∀ j, getEntry (logLoop expT fuel i T) j < c := by
  intro fuel
  induction fuel with
  | zero => intro i T hT _ j; exact hT j
  | succ n ih =>
    intro i T hT hle j
    rw [logLoop_succ]
    apply ih (i + 1) _ _ (by omega)
    intro j2
    by_cases hj2 : j2 = getEntry expT i
    · rw [hj2, getEntry_setEntry_self _ _ _ (by omega)]
      omega
    · rw [getEntry_setEntry_other _ _ _ _ (by omega) hj2]
      exact hT j2

/-- Every stored log value of a built field is below field_size - 1. -/
theorem gfBuild_log_lt (m poly : Nat) (h3 : 3 ≤ m) (h12 : m ≤ 12) :
    ∀ j, (gfBuild m poly).logAt j < 2 ^ m - 1 := by
  intro j
  have hfs : (8 : Nat) ≤ 2 ^ m := by
    calc (8 : Nat) = 2 ^ 3 := rfl
      _ ≤ 2 ^ m := Nat.pow_le_pow_right (by norm_num) h3
  have hfs2 : (2 : Nat) ^ m ≤ 2 ^ 12 := Nat.pow_le_pow_right (by norm_num) h12
  have h4096 : (2 : Nat) ^ 12 = 4096 := by norm_num
  have hcell : cellB = 65536 := by norm_num [cellB]
  have hc : 2 ^ m - 1 ≤ cellB := by omega
  show getEntry (buildLog (buildExp (2 ^ m) poly) (2 ^ m)) j < 2 ^ m - 1
  unfold buildLog
  apply logLoop_entries_lt _ _ hc (2 ^ m - 1) 0 0 _ (by omega)
  intro j2
  rw [getEntry_zero]
  omega

set_option linter.unusedVariables false in
/-- C10: for a supported m and a primitive polynomial with bit m set, all
table accesses of the field operations stay in range: every exp-table
index computed by multiply, divide, power and inverse is the value of a
modulus by field_size - 1 and is therefore below field_size - 1 (and so
below field_size = 2^m), the log table is consulted only at the operand
positions a and b, which are below 2^m by hypothesis, and every value
stored in the log table is below field_size - 1. -/
theorem C10_table_index_safety (m poly : Nat) (h3 : 3 ≤ m) (h12 : m ≤ 12)
    (hbit : poly.testBit m = true) (hprim : (gfBuild m poly).isPrimitive 2 = true)
    (a b : Nat) (ha : a < 2 ^ m) (hb : b < 2 ^ m) :
    (∀ j, j < 2 ^ m → (gfBuild m poly).logAt j < 2 ^ m - 1)
  ∧ (gfBuild m poly).mulIdx a b < 2 ^ m - 1
  ∧ (gfBuild m poly).divIdx a b < 2 ^ m - 1
  ∧ (∀ e, (gfBuild m poly).powIdx a e < 2 ^ m - 1)
  ∧ (gfBuild m poly).invIdx a < 2 ^ m - 1
  ∧ 2 ^ m - 1 < 2 ^ m := by
  have hfs : (8 : Nat) ≤ 2 ^ m := by
    calc (8 : Nat) = 2 ^ 3 := rfl
      _ ≤ 2 ^ m := Nat.pow_le_pow_right (by norm_num) h3
  have hpos : 0 < 2 ^ m - 1 := by omega
  refine ⟨fun j _ => gfBuild_log_lt m poly h3 h12 j, ?_, ?_, fun e => ?_, ?_, by omega⟩
  · exact Nat.mod_lt _ hpos
  · exact Nat.mod_lt _ hpos
  · exact Nat.mod_lt _ hpos
  · exact Nat.mod_lt _ hpos

/-- C10, instantiated: the index bounds for GF(2^3) with polynomial 0xB at
the operands 5 and 3. -/
theorem C10_table_index_safety_witness :
    (∀ j, j < 2 ^ 3 → (gfBuild 3 0xB).logAt j < 2 ^ 3 - 1)
  ∧ (gfBuild 3 0xB).mulIdx 5 3 < 2 ^ 3 - 1
  ∧ (gfBuild 3 0xB).divIdx 5 3 < 2 ^ 3 - 1
  ∧ (∀ e, (gfBuild 3 0xB).powIdx 5 e < 2 ^ 3 - 1)
  ∧ (gfBuild 3 0xB).invIdx 5 < 2 ^ 3 - 1
  ∧ 2 ^ 3 - 1 < 2 ^ 3 :=
  C10_table_index_safety 3 0xB (by norm_num) (by norm_num) (by decide) (by decide) 5 3
    (by norm_num) (by norm_num)

/-- Horner evaluation of the empty coefficient list. -/
theorem polyEval_nil (gf : GF) (x : Nat) : polyEval gf [] x = 0 := rfl

/-- One Horner step of GFPolynomial::evaluate. -/
theorem polyEval_cons (gf : GF) (a : Nat) (c : List Nat) (x : Nat) :
    polyEval gf (a :: c) x = gf.multiply (polyEval gf c x) x ^^^ a := rfl

/-- Multiplying from zero on the left gives zero (the guard of multiply). -/
theorem multiply_zero_left (gf : GF) (b : Nat) : gf.multiply 0 b = 0 := by
  simp [GF.multiply]

/-- Multiplying by zero on the right gives zero (the guard of multiply). -/
theorem multiply_zero_right (gf : GF) (a : Nat) : gf.multiply a 0 = 0 := by
  simp [GF.multiply]

/-- field_size is positive. -/
theorem fieldSize_pos (gf : GF) : 0 < gf.fieldSize :=
  pow_pos (by norm_num) gf.m

/-- XOR keeps the carrier [0, field_size) since field_size is a power of
two. -/
theorem xor_lt_fieldSize (gf : GF) {u v : Nat} (hu : u < gf.fieldSize)
    (hv : v < gf.fieldSize) : u ^^^ v < gf.fieldSize :=
  Nat.xor_lt_two_pow hu hv

/-- XOR left commutation, used to reassociate Horner sums. -/
theorem gfXor_left_comm (u v w : Nat) : u ^^^ (v ^^^ w) = v ^^^ (u ^^^ w) := by
  rw [← Nat.xor_assoc, Nat.xor_comm u v, Nat.xor_assoc]

/-- Horner evaluation stays in the carrier. -/
theorem polyEval_lt_fieldSize (gf : GF) (h : GFRingLaws gf) :
    ∀ c : List Nat, (∀ v ∈ c, v < gf.fieldSize) → ∀ x, x < gf.fieldSize →
      polyEval gf c x < gf.fieldSize := by
  intro c
  induction c with
  | nil => intro _ x _; exact fieldSize_pos gf
  | cons a c ih =>
    intro hc x hx
    have h1 := List.forall_mem_cons.mp hc
    rw [polyEval_cons]
    exact xor_lt_fieldSize gf (h.closed _ (ih h1.2 x hx) _ hx) h1.1

/-- Right distribution of multiply over XOR, from commutativity and left
distribution. -/
theorem gfMul_xor_right (gf : GF) (h : GFRingLaws gf) (u v y : Nat)
    (hu : u < gf.fieldSize) (hv : v < gf.fieldSize) (hy : y < gf.fieldSize) :
    gf.multiply (u ^^^ v) y = gf.multiply u y ^^^ gf.multiply v y := by
  rw [h.comm _ (xor_lt_fieldSize gf hu hv) _ hy, h.dist _ hy _ hu _ hv,
    h.comm _ hy _ hu, h.comm _ hy _ hv]

/-- Raw sum with an empty left argument. -/
theorem polyAddRaw_nil_left (gf : GF) (q : List Nat) : polyAddRaw gf [] q = q := by
  cases q <;> rfl

/-- Raw sum with an empty right argument. -/
theorem polyAddRaw_nil_right (gf : GF) (p : List Nat) : polyAddRaw gf p [] = p := by
  cases p <;> rfl

/-- Raw sum, coefficient step. -/
theorem polyAddRaw_cons (gf : GF) (a b : Nat) (p q : List Nat) :
    polyAddRaw gf (a :: p) (b :: q) = gf.add a b :: polyAddRaw gf p q := rfl

/-- Coefficients of the raw sum stay in the carrier. -/
theorem polyAddRaw_bounds (gf : GF) :
    ∀ p q : List Nat, (∀ v ∈ p, v < gf.fieldSize) → (∀ v ∈ q, v < gf.fieldSize) →
      ∀ v ∈ polyAddRaw gf p q, v < gf.fieldSize := by
  intro p
  induction p with
  | nil => intro q _ hq; rw [polyAddRaw_nil_left]; exact hq
  | cons a p ih =>
    intro q hp hq
    cases q with
    | nil => rw [polyAddRaw_nil_right]; exact hp
    | cons b q =>
      have hpc := List.forall_mem_cons.mp hp
      have hqc := List.forall_mem_cons.mp hq
      rw [polyAddRaw_cons, List.forall_mem_cons]
      exact ⟨xor_lt_fieldSize gf hpc.1 hqc.1, ih q hpc.2 hqc.2⟩

/-- Coefficients of a scaled polynomial stay in the carrier. -/
theorem polyScale_bounds (gf : GF) (h : GFRingLaws gf) (s : Nat) (hs : s < gf.fieldSize)
    (q : List Nat) (hq : ∀ v ∈ q, v < gf.fieldSize) :
    ∀ v ∈ polyScale gf s q, v < gf.fieldSize := by
  intro v hv
  obtain ⟨b, hb, rfl⟩ := List.mem_map.mp hv
  exact h.closed s hs b (hq b hb)

/-- Coefficients of the raw convolution stay in the carrier. -/
theorem polyMulRaw_bounds (gf : GF) (h : GFRingLaws gf) :
    ∀ p q : List Nat, (∀ v ∈ p, v < gf.fieldSize) → (∀ v ∈ q, v < gf.fieldSize) →
      ∀ v ∈ polyMulRaw gf p q, v < gf.fieldSize := by
  intro p
  induction p with
  | nil => intro q _ _ v hv; cases hv
  | cons a p ih =>
    intro q hp hq
    have hpc := List.forall_mem_cons.mp hp
    rw [show polyMulRaw gf (a :: p) q
          = polyAddRaw gf (polyScale gf a q) (0 :: polyMulRaw gf p q) from rfl]
    apply polyAddRaw_bounds gf _ _ (polyScale_bounds gf h a hpc.1 q hq)
    rw [List.forall_mem_cons]
    exact ⟨fieldSize_pos gf, ih q hpc.2 hq⟩

/-- Horner evaluation of the raw coefficient-wise sum is the XOR of the
evaluations. -/
theorem polyEval_addRaw (gf : GF) (h : GFRingLaws gf) :
    ∀ p q : List Nat, (∀ v ∈ p, v < gf.fieldSize) → (∀ v ∈ q, v < gf.fieldSize) →
      ∀ x, x < gf.fieldSize →
        polyEval gf (polyAddRaw gf p q) x = polyEval gf p x ^^^ polyEval gf q x := by
  intro p
  induction p with
  | nil =>
    intro q _ _ x _
    rw [polyAddRaw_nil_left, polyEval_nil, Nat.zero_xor]
  | cons a p ih =>
    intro q hp hq x hx
    cases q with
    | nil =>
      rw [polyAddRaw_nil_right, polyEval_nil, Nat.xor_zero]
    | cons b q =>
      have hpc := List.forall_mem_cons.mp hp
      have hqc := List.forall_mem_cons.mp hq
      have hep := polyEval_lt_fieldSize gf h p hpc.2 x hx
      have heq := polyEval_lt_fieldSize gf h q hqc.2 x hx
      rw [polyAddRaw_cons]
      rw [polyEval_cons, polyEval_cons, polyEval_cons, ih q hpc.2 hqc.2 x hx]
      rw [show gf.add a b = a ^^^ b from rfl]
      rw [gfMul_xor_right gf h _ _ _ hep heq hx]
      simp only [Nat.xor_assoc]
      congr 1
      exact gfXor_left_comm _ _ _

/-- Horner evaluation of a scaled polynomial multiplies the evaluation by
the scalar. -/
theorem polyEval_scale (gf : GF) (h : GFRingLaws gf) (s : Nat) (hs : s < gf.fieldSize) :
    ∀ q : List Nat, (∀ v ∈ q, v < gf.fieldSize) → ∀ x, x < gf.fieldSize →
      polyEval gf (polyScale gf s q) x = gf.multiply s (polyEval gf q x) := by
  intro q
  induction q with
  | nil =>
    intro _ x _
    rw [show polyScale gf s [] = [] from rfl, polyEval_nil, multiply_zero_right]
  | cons b q ih =>
    intro hq x hx
    have hqc := List.forall_mem_cons.mp hq
    have heq := polyEval_lt_fieldSize gf h q hqc.2 x hx
    rw [show polyScale gf s (b :: q) = gf.multiply s b :: polyScale gf s q from rfl]
    rw [polyEval_cons, polyEval_cons, ih hqc.2 x hx]
    rw [h.dist _ hs _ (h.closed _ heq _ hx) _ hqc.1]
    rw [h.assoc _ hs _ heq _ hx]

/-- Horner evaluation of the raw convolution is the field product of the
evaluations. -/
theorem polyEval_mulRaw (gf : GF) (h : GFRingLaws gf) :
    ∀ p q : List Nat, (∀ v ∈ p, v < gf.fieldSize) → (∀ v ∈ q, v < gf.fieldSize) →
      ∀ x, x < gf.fieldSize →
        polyEval gf (polyMulRaw gf p q) x
          = gf.multiply (polyEval gf p x) (polyEval gf q x) := by
  intro p
  induction p with
  | nil =>
    intro q _ _ x _
    rw [show polyMulRaw gf [] q = [] from rfl, polyEval_nil, multiply_zero_left]
  | cons a p ih =>
    intro q hp hq x hx
    have hpc := List.forall_mem_cons.mp hp
    have hep := polyEval_lt_fieldSize gf h p hpc.2 x hx
    have heq := polyEval_lt_fieldSize gf h q hq x hx
    have hmb : ∀ v ∈ (0 :: polyMulRaw gf p q), v < gf.fieldSize := by
      rw [List.forall_mem_cons]
      exact ⟨fieldSize_pos gf, polyMulRaw_bounds gf h p q hpc.2 hq⟩
    rw [show polyMulRaw gf (a :: p) q
          = polyAddRaw gf (polyScale gf a q) (0 :: polyMulRaw gf p q) from rfl]
    rw [polyEval_addRaw gf h _ _ (polyScale_bounds gf h a hpc.1 q hq) hmb x hx]
    rw [polyEval_scale gf h a hpc.1 q hq x hx]
    rw [polyEval_cons, Nat.xor_zero, ih q hpc.2 hq x hx]
    rw [polyEval_cons]
    rw [gfMul_xor_right gf h _ _ _ (h.closed _ hep _ hx) hpc.1 heq]
    have hswap : gf.multiply (gf.multiply (polyEval gf p x) x) (polyEval gf q x)
        = gf.multiply (gf.multiply (polyEval gf p x) (polyEval gf q x)) x := by
      rw [h.assoc _ hep _ hx _ heq, h.comm _ hx _ heq, ← h.assoc _ hep _ heq _ hx]
    rw [hswap, Nat.xor_comm]

/-- A polynomial whose coefficients are all zero evaluates to zero. -/
theorem polyEval_isZero (gf : GF) :
    ∀ c : List Nat, polyIsZero c = true → ∀ x, polyEval gf c x = 0 := by
  intro c
  induction c with
  | nil => intro _ x; rfl
  | cons a c ih =>
    intro hz x
    rw [polyIsZero, List.all_cons, Bool.and_eq_true] at hz
    have ha : a = 0 := by simpa using hz.1
    rw [polyEval_cons, ih hz.2 x, multiply_zero_left, Nat.zero_xor, ha]

/-- Appending a zero coefficient does not change the Horner value. -/
theorem polyEval_append_zero (gf : GF) (c : List Nat) (x : Nat) :
    polyEval gf (c ++ [0]) x = polyEval gf c x := by
  unfold polyEval
  rw [List.foldr_append]
  have h0 : List.foldr (fun a res => gf.add (gf.multiply res x) a) 0 [0] = 0 := by
    show gf.add (gf.multiply 0 x) 0 = 0
    rw [show gf.add (gf.multiply 0 x) 0 = gf.multiply 0 x ^^^ 0 from rfl,
      multiply_zero_left, Nat.xor_zero]
  rw [h0]

/-- Normalization does not change the Horner value. -/
theorem polyEval_norm (gf : GF) (c : List Nat) (x : Nat) :
    polyEval gf (polyNorm c) x = polyEval gf c x := by
  induction c using List.reverseRecOn with
  | nil =>
    show polyEval gf [0] x = polyEval gf [] x
    rw [polyEval_cons, polyEval_nil, multiply_zero_left, Nat.zero_xor]
  | append_singleton c a ih =>
    by_cases ha : a = 0
    · subst ha
      have h1 : polyNorm (c ++ [0]) = polyNorm c := by
        unfold polyNorm
        rw [List.reverse_append]
        simp
      rw [h1, ih, polyEval_append_zero]
    · have h1 : polyNorm (c ++ [a]) = c ++ [a] := by
        unfold polyNorm
        rw [List.reverse_append]
        have hstop : ((a :: c.reverse).dropWhile fun v => v == 0) = a :: c.reverse :=
          List.dropWhile_cons_of_neg (by simp [ha])
        rw [show List.reverse [a] ++ c.reverse = a :: c.reverse by simp]
        rw [hstop]
        simp
      rw [h1]

/-- C9: Horner evaluation is a ring homomorphism from the polynomial
algebra into the field fixing constants and sending the polynomial x to
the evaluation point: over any field whose multiply satisfies the ring
laws on the carrier (as a primitive polynomial guarantees), evaluating a
sum is the field sum of the evaluations, evaluating a product is the
field product of the evaluations, a constant polynomial evaluates to its
constant, and the polynomial x evaluates to the point. -/
theorem C9_evaluation_is_ring_hom (gf : GF) (h : GFRingLaws gf)
    (p q : List Nat) (hp : ∀ v ∈ p, v < gf.fieldSize) (hq : ∀ v ∈ q, v < gf.fieldSize)
    (x : Nat) (hx : x < gf.fieldSize) :
    polyEval gf (polyAdd gf p q) x = gf.add (polyEval gf p x) (polyEval gf q x)
  ∧ polyEval gf (polyMul gf p q) x = gf.multiply (polyEval gf p x) (polyEval gf q x)
  ∧ (∀ c : Nat, polyEval gf [c] x = c)
  ∧ polyEval gf [0, 1] x = x := by
  refine ⟨?_, ?_, ?_, ?_⟩
  · rw [show polyAdd gf p q = polyNorm (polyAddRaw gf p q) from rfl, polyEval_norm]
    rw [polyEval_addRaw gf h p q hp hq x hx]
    rfl
  · rw [show polyMul gf p q
        = if polyIsZero p || polyIsZero q then [0]
          else polyNorm (polyMulRaw gf p q) from rfl]
    by_cases hz : (polyIsZero p || polyIsZero q) = true
    · rw [if_pos hz]
      have h0 : polyEval gf [0] x = 0 := by
        rw [polyEval_cons, polyEval_nil, multiply_zero_left, Nat.zero_xor]
      rw [h0]
      rw [Bool.or_eq_true] at hz
      rcases hz with hzp | hzq
      · rw [polyEval_isZero gf p hzp x, multiply_zero_left]
      · rw [polyEval_isZero gf q hzq x, multiply_zero_right]
    · rw [if_neg hz, polyEval_norm, polyEval_mulRaw gf h p q hp hq x hx]
  · intro c
    rw [polyEval_cons, polyEval_nil, multiply_zero_left, Nat.zero_xor]
  · have h1 : polyEval gf [1] x = 1 := by
      rw [polyEval_cons, polyEval_nil, multiply_zero_left, Nat.zero_xor]
    rw [polyEval_cons, h1, Nat.xor_zero, h.one x hx]

/-- C9, instantiated in GF(2^3): the ring laws are checked by computation
and the homomorphism equations applied at p = x^2 + 2x + 1, q = 4x + 3,
x = 5. -/
theorem C9_evaluation_is_ring_hom_witness :
    polyEval gf3 (polyAdd gf3 [1, 2, 1] [3, 4]) 5
        = gf3.add (polyEval gf3 [1, 2, 1] 5) (polyEval gf3 [3, 4] 5)
  ∧ polyEval gf3 (polyMul gf3 [1, 2, 1] [3, 4]) 5
        = gf3.multiply (polyEval gf3 [1, 2, 1] 5) (polyEval gf3 [3, 4] 5)
  ∧ (∀ c : Nat, polyEval gf3 [c] 5 = c)
  ∧ polyEval gf3 [0, 1] 5 = 5 :=
  C9_evaluation_is_ring_hom gf3
    ⟨by decide, by decide, by decide, by decide, by decide⟩
    [1, 2, 1] [3, 4] (by decide) (by decide) 5 (by decide)
